import Mathlib

/-!
Verification of the rquickjs schedular (src/core/src/runtime/schedular.rs).

The schedular drives a dynamic set of spawned futures.  Its state consists of a
live-task counter `len`, a reentrancy counter `reentrant`, a lock-free ready
queue `should_poll` of task references, and an intrusive doubly linked list of
all live tasks rooted at `all_next`/`all_prev`.

The shallow embedding below models each task storage block by a `Task` record
(its atomic/cell flags, its intrusive list links, its shared reference count and
the number of times its computation has been dropped) and the whole schedular by
a `State` record.  Tasks are addressed by allocation order (`Nat` ids);
`nalloc` is the number of tasks allocated so far.  The ready queue is modeled as
a FIFO list of task ids; the transient `Pop::Inconsistant` outcome of the
lock-free pop is modeled by a stream of booleans (`true` means the pop observed
the queue in its inconsistent phase).  The files task.rs, queue.rs, waker.rs and
atomic_waker.rs of the same module are collaborator code that is not part of the
analysed source; the definitions derived from their documented contracts are
marked `Modelled from the spec` below.
-/

set_option autoImplicit false

namespace SchedularModel

/-- One task storage block: the state flags, the intrusive all-task list links,
the shared (Arc) reference count, and a counter of how many times the erased
computation has been dropped (`task_drop`). -/
structure Task where
  queued : Bool
  running : Bool
  done : Bool
  next : Option Nat
  prev : Option Nat
  refcount : Nat
  dropCount : Nat
deriving DecidableEq, Repr

/-- The all-zero task record used for not-yet-allocated ids. -/
def Task.default : Task :=
  { queued := false
    running := false
    done := false
    next := none
    prev := none
    refcount := 0
    dropCount := 0 }

/-- Modelled from the spec: Task::new in task.rs is not part of the analysed
source.  Per section 3 of the spec, `queued` transitions false to true exactly
when a reference is inserted into the Ready Queue; `Schedular::push` inserts the
freshly created task into the queue immediately, so a fresh task starts with
`queued = true`, `running = false`, `done = false`, detached list links, and two
shared references (one owned by the all-task list, one by the ready queue). -/
def Task.new : Task :=
  { queued := true
    running := false
    done := false
    next := none
    prev := none
    refcount := 2
    dropCount := 0 }

/-- The whole schedular state: the fields of `struct Schedular` plus the task
storage heap (`tasks`/`nalloc`), the contents of the `should_poll` ready queue,
and whether an external waker has been registered with the queue. -/
structure State where
  len : Nat
  reentrant : Nat
  nalloc : Nat
  tasks : Nat → Task
  queue : List Nat
  allNext : Option Nat
  allPrev : Option Nat
  registered : Bool

/-- The state of `Schedular::new`: no tasks, empty queue, zero counters. -/
def initState : State :=
  { len := 0
    reentrant := 0
    nalloc := 0
    tasks := fun _ => Task.default
    queue := []
    allNext := none
    allPrev := none
    registered := false }

/-- Point update of one task record. -/
def updateTask (t : Nat) (f : Task → Task) (s : State) : State :=
  { s with tasks := fun a => if a = t then f (s.tasks a) else s.tasks a }

/-- `task.body().queued.store b` / `swap`. -/
def setQueued (t : Nat) (b : Bool) (s : State) : State :=
  updateTask t (fun x => { x with queued := b }) s

/-- `task.body().running.set b`. -/
def setRunning (t : Nat) (b : Bool) (s : State) : State :=
  updateTask t (fun x => { x with running := b }) s

/-- Dropping one shared (Arc) reference to a task. -/
def decRef (t : Nat) (s : State) : State :=
  updateTask t (fun x => { x with refcount := x.refcount - 1 }) s

/-- `Schedular::is_empty`: `self.all_next.get().is_none()`. -/
def isEmpty (s : State) : Bool :=
  s.allNext.isNone

/-- `Schedular::push_task_to_all`: set the `next` link of the new task to the old head,
fix the `prev` link of the old head (the write to `x.body().prev` for `x` the old head is
rendered pointwise as the condition `s.allNext = some a`), move `all_next` to
the new task, and initialise `all_prev` when the list was empty. -/
def pushTaskToAll (t : Nat) (s : State) : State :=
  { s with
    tasks := fun a =>
      { s.tasks a with
        next := if a = t then s.allNext else (s.tasks a).next
        prev := if s.allNext = some a then some t else (s.tasks a).prev }
    allNext := some t
    allPrev := if s.allPrev = none then some t else s.allPrev }

/-- `Schedular::push`: allocate a fresh task (two references), link it into the
all-task list, push the second reference into the ready queue, and increment
`len`.  Nothing is polled. -/
def push (s : State) : State :=
  let f := s.nalloc
  let s1 : State :=
    { s with nalloc := f + 1, tasks := fun a => if a = f then Task.new else s.tasks a }
  let s2 := pushTaskToAll f s1
  let s3 : State := { s2 with queue := s2.queue ++ [f] }
  { s3 with len := s3.len + 1 }

/-- The task-heap effect of `Schedular::pop_task_all`: store `queued := true`,
set `done` (running `task_drop`, i.e. dropping the computation, only if `done`
was previously false), rewrite the neighbour links of the detached task
(`next.body().prev.set(task.prev)` for `next` the successor, rendered pointwise
as the condition `(tk t).next = some a`, and `prev.body().next.set(task.next)`
for `prev` the predecessor, rendered as `(tk t).prev = some a`), and finally
drop the reference owned by the all-task list.  The writes of the source touch
pairwise disjoint fields of the affected records, so the heap update is
presented field-wise. -/
def detachMap (tk : Nat → Task) (t : Nat) : Nat → Task := fun a =>
  { queued := if a = t then true else (tk a).queued
    running := (tk a).running
    done := if a = t then true else (tk a).done
    next := if (tk t).prev = some a then (tk t).next else (tk a).next
    prev := if (tk t).next = some a then (tk t).prev else (tk a).prev
    refcount := if a = t then (tk a).refcount - 1 else (tk a).refcount
    dropCount :=
      if a = t then (tk a).dropCount + (if (tk a).done then 0 else 1)
      else (tk a).dropCount }

/-- `Schedular::pop_task_all`: mark the task retired (idempotent `task_drop`),
detach it from the all-task list (updating `all_next`/`all_prev` when the task
was first/last), drop the reference owned by the list and decrement `len`. -/
def popTaskAll (t : Nat) (s : State) : State :=
  { s with
    tasks := detachMap s.tasks t
    allPrev := if (s.tasks t).next = none then (s.tasks t).prev else s.allPrev
    allNext := if (s.tasks t).prev = none then (s.tasks t).next else s.allNext
    len := s.len - 1 }

/-- Modelled from the spec: the waker built by waker.rs is not part of the
analysed source.  Per section 4.4 of the spec, waking a task by reference clones
a handle (refcount plus one) and, if `queued` is currently false, sets it true
and transfers the cloned reference into the ready queue; if `queued` is already
true the wake-up is deduplicated and the clone is released again, leaving the
state unchanged. -/
def wake (t : Nat) (s : State) : State :=
  if (s.tasks t).queued then s
  else
    let s1 := setQueued t true s
    let s2 := updateTask t (fun x => { x with refcount := x.refcount + 1 }) s1
    { s2 with queue := s2.queue ++ [t] }

/-- `self.should_poll.waker().register(cx.waker())`. -/
def registerWaker (s : State) : State :=
  { s with registered := true }

/-- The result type `SchedularPoll` of `Schedular::poll`. -/
inductive SchedularPoll where
  | ShouldYield
  | Empty
  | Pending
  | PendingProgress
deriving DecidableEq, Repr

/-- Entering the drive step of a popped task: clear `queued` (the popped
reference now represents the running task), increment the reentrancy counter
and set `running`. -/
def driveEnter (t : Nat) (s : State) : State :=
  let s1 := setQueued t false s
  { setRunning t true s1 with reentrant := s1.reentrant + 1 }

/-- Leaving the drive step: clear `running` and decrement the reentrancy
counter. -/
def driveExit (t : Nat) (s : State) : State :=
  { setRunning t false s with reentrant := s.reentrant - 1 }

/-- The loop of `Schedular::poll`.  `drive` is the abstract one-step driver of
the erased computation of a task: it receives the task id and the current state and
returns the state after the drive step together with `true` for `Poll::Ready`
and `false` for `Poll::Pending` (the computation may wake tasks, spawn tasks or
reenter the schedular, all of which is part of the returned state).  The oracle
list supplies, per queue pop, whether the lock-free pop observed the transient
inconsistent state; it also serves as fuel, `none` meaning that the oracle was
exhausted or an internal assertion failed.  The boolean in the result records
whether `cx.waker().wake_by_ref()` was invoked before returning. -/
def pollLoop (drive : Nat → State → State × Bool) :
    List Bool → State → Nat → Nat → Nat → Option (State × Bool × SchedularPoll)
  | [], _, _, _, _ => none
  | inc :: rest, s, iteration, yielded, poppedRunning =>
    if inc then
      -- Pop::Inconsistant: re-signal the caller and yield back immediately.
      some (s, true, SchedularPoll.ShouldYield)
    else
      match s.queue with
      | [] =>
        -- Pop::Empty
        if 0 < iteration then some (s, false, SchedularPoll.PendingProgress)
        else some (s, false, SchedularPoll.Pending)
      | t :: q =>
        -- Pop::Value: ownership of one reference moves to the loop body.
        let s1 : State := { s with queue := q }
        if (s1.tasks t).done then
          -- Stale entry for a retired task: drop the reference and continue.
          pollLoop drive rest (decRef t s1) iteration yielded poppedRunning
        else if (s1.tasks t).running then
          -- Reentrant encounter: push the same reference back and count it.
          let s2 : State := { s1 with queue := s1.queue ++ [t] }
          if s2.reentrant < poppedRunning + 1 then
            if 0 < iteration then some (s2, false, SchedularPoll.PendingProgress)
            else some (s2, false, SchedularPoll.Pending)
          else
            pollLoop drive rest s2 iteration yielded (poppedRunning + 1)
        else if (s1.tasks t).queued = false then
          -- assert!(prev) would panic.
          none
        else
          let s3 := driveEnter t s1
          let r := drive t s3
          if r.2 then
            -- Poll::Ready: the deferred cleanup unlinks the task, then the
            -- waker built for this drive step drops its reference.
            pollLoop drive rest (decRef t (popTaskAll t (driveExit t r.1)))
              (iteration + 1) yielded poppedRunning
          else
            -- Poll::Pending: keep the task linked, count synchronous requeues.
            let s4 := setRunning t false (driveExit t r.1)
            let yielded1 := yielded + (if (s4.tasks t).queued then 1 else 0)
            if 2 < yielded1 ∨ s4.len < iteration + 1 then
              some (decRef t s4, true, SchedularPoll.ShouldYield)
            else
              pollLoop drive rest (decRef t s4) (iteration + 1) yielded1 poppedRunning

/-- `Schedular::poll`: return `Empty` when no task is linked, otherwise
register the waker of the caller with the queue and run the loop with all counters
at zero. -/
def poll (drive : Nat → State → State × Bool) (oracle : List Bool) (s : State) :
    Option (State × Bool × SchedularPoll) :=
  if isEmpty s then some (s, false, SchedularPoll.Empty)
  else pollLoop drive oracle (registerWaker s) 0 0 0

/-- The first loop of `Schedular::clear`: pop the head of the all-task list
until the list is empty (with explicit fuel; the source loop terminates because
each `pop_task_all` removes the current head). -/
def clearAllLoop : Nat → State → State
  | 0, s => s
  | fuel + 1, s =>
    match s.allNext with
    | none => s
    | some t => clearAllLoop fuel (popTaskAll t s)

/-- The second loop of `Schedular::clear`: drain the ready queue, dropping each
popped reference; an inconsistent pop yields the thread and retries. -/
def drainLoop : List Bool → State → State
  | [], s => s
  | true :: o, s => drainLoop o s
  | false :: o, s =>
    match s.queue with
    | [] => s
    | t :: q => drainLoop o (decRef t { s with queue := q })

/-- `Schedular::clear`: unlink every task in the all-task list, then drain the
ready queue. -/
def clear (fuel : Nat) (oracle : List Bool) (s : State) : State :=
  drainLoop oracle (clearAllLoop fuel s)

/-- `impl Drop for Schedular`: dropping the schedular runs `clear`. -/
def dropSchedular (fuel : Nat) (oracle : List Bool) (s : State) : State :=
  clear fuel oracle s

/-- The drive behaviour of a task that always reports pending and immediately
re-wakes itself during its own drive step. -/
def selfWakeDrive : Nat → State → State × Bool :=
  fun t s => (wake t s, false)

def chain (tk : Nat → Task) : Option Nat → Option Nat → List Nat → Prop
  | _, h, [] => h = none
  | pr, h, a :: l => h = some a ∧ (tk a).prev = pr ∧ chain tk (some a) (tk a).next l

/-- The intrusive all-task list rooted at `allNext` holds exactly the tasks of
`l`, with consistent forward and backward links, `allPrev` pointing at the last
element, no duplicates, and membership characterised by allocated-and-not-done. -/
def ListRep (s : State) (l : List Nat) : Prop :=
  chain s.tasks none s.allNext l ∧ s.allPrev = l.getLast? ∧ l.Nodup ∧
  (∀ a, a ∈ l ↔ a < s.nalloc ∧ (s.tasks a).done = false)

/-- The global state invariant: the all-task list represents some duplicate-free
list whose length is the live-task counter; every ready-queue entry is for an
allocated task whose `queued` flag is set, each task has at most one entry in
the queue, every retired (`done`) task keeps `queued` set, and not-yet-allocated
ids hold the all-zero record. -/
structure Inv (s : State) : Prop where
  rep : ∃ l, ListRep s l ∧ s.len = l.length
  queueOnce : ∀ t, s.queue.count t ≤ 1
  queueQueued : ∀ t, t ∈ s.queue → (s.tasks t).queued = true
  doneQueued : ∀ t, (s.tasks t).done = true → (s.tasks t).queued = true
  defaults : ∀ t, s.nalloc ≤ t → s.tasks t = Task.default
  queueAlloc : ∀ t, t ∈ s.queue → t < s.nalloc

/-- One atomic step of the schedular protocol, as performed by the source: a
spawn, a concurrent waker invocation, the individual actions of the poll loop on
a popped task (discard of a stale entry, re-push of a reentrantly encountered
running task, the begin and the two possible ends of a drive step), and `clear`.
Reentrant polling needs no extra transition: the actions an inner poll performs
during a drive step are themselves steps of this relation.  `clear` is exposed
for quiescent states (no task mid-drive), matching the single-consumer
discipline of section 5 of the spec under which `clear` is an external entry
point and not invoked from inside a drive step. -/
inductive Step : State → State → Prop where
  | spawnS (s : State) : Step s (push s)
  | wakeS (s : State) (t : Nat) (ht : t < s.nalloc) : Step s (wake t s)
  | popDiscardS (s : State) (t : Nat) (q : List Nat) (hq : s.queue = t :: q)
      (hd : (s.tasks t).done = true) : Step s (decRef t { s with queue := q })
  | popRepushS (s : State) (t : Nat) (q : List Nat) (hq : s.queue = t :: q)
      (hd : (s.tasks t).done = false) (hr : (s.tasks t).running = true) :
      Step s { s with queue := q ++ [t] }
  | popBeginS (s : State) (t : Nat) (q : List Nat) (hq : s.queue = t :: q)
      (hd : (s.tasks t).done = false) (hr : (s.tasks t).running = false) :
      Step s (driveEnter t { s with queue := q })
  | endReadyS (s : State) (t : Nat) (hr : (s.tasks t).running = true)
      (hd : (s.tasks t).done = false) :
      Step s (decRef t (popTaskAll t (driveExit t s)))
  | endPendingS (s : State) (t : Nat) (hr : (s.tasks t).running = true) :
      Step s (decRef t (setRunning t false (driveExit t s)))
  | clearS (s : State) (oracle : List Bool) (hr : ∀ u, (s.tasks u).running = false) :
      Step s (clear s.len oracle s)

/-- The states reachable from a freshly created schedular by the protocol. -/
def Reachable (s : State) : Prop := Relation.ReflTransGen Step initState s

def reentrantWitnessState : State :=
  wake 0 (driveEnter 0 { push initState with queue := [] })

/-- C5: whenever the ready-queue pop observes the queue empty, the poll loop
returns `PendingProgress` if at least one task was driven during this call
(`iteration`, which counts drive attempts, is positive) and `Pending` if no task
was driven; at the invocation level, poll on a non-empty schedular whose queue
is empty returns `Pending` without signalling the caller. -/
theorem poll_queue_empty (drive : Nat → State → State × Bool) (o : List Bool) (s : State)
    (it yi pr : Nat) (hq : s.queue = []) :
    pollLoop drive (false :: o) s it yi pr =
      (if 0 < it then some (s, false, SchedularPoll.PendingProgress)
       else some (s, false, SchedularPoll.Pending)) ∧
    (∀ s', s'.allNext ≠ none → s'.queue = [] →
      poll drive (false :: o) s' = some (registerWaker s', false, SchedularPoll.Pending)) := by
  constructor
  · simp [pollLoop, hq]
  · intro s' h1 h2
    simp [poll, isEmpty, Option.isNone_iff_eq_none, h1, pollLoop, registerWaker, h2]

/-- C6: whenever the ready-queue pop reports the transient inconsistent state,
the poll loop immediately re-signals the notification handle of the caller (the
`true` component) and returns `ShouldYield`, in this very iteration, regardless
of the queue contents, counters, drive behaviour or remaining oracle — it
neither loops, nor panics (the result is `some`), nor busy-spins. -/
theorem poll_inconsistent_yields (drive : Nat → State → State × Bool) (o : List Bool)
    (s : State) (it yi pr : Nat) :
    pollLoop drive (true :: o) s it yi pr = some (s, true, SchedularPoll.ShouldYield) ∧
    (∀ s', s'.allNext ≠ none →
      poll drive (true :: o) s' = some (registerWaker s', true, SchedularPoll.ShouldYield)) := by
  constructor
  · simp [pollLoop]
  · intro s' h1
    simp [poll, isEmpty, Option.isNone_iff_eq_none, h1, pollLoop]

/-- C2: when the `running` flag of the popped task is set (a reentrant encounter), the
poll loop re-pushes that same reference into the ready queue unchanged (state
fields other than the queue are untouched) and counts it; as soon as the count
of such reentrant re-encounters (`popped_running + 1`) exceeds the current
reentrancy depth, poll returns `PendingProgress` if at least one task was driven
this call (`0 < iteration`) and `Pending` otherwise; below the threshold the
loop continues with the incremented count. -/
theorem poll_reentrant_repush (drive : Nat → State → State × Bool) (o : List Bool)
    (s : State) (it yi pr t : Nat) (q : List Nat)
    (hq : s.queue = t :: q) (hd : (s.tasks t).done = false) (hr : (s.tasks t).running = true) :
    pollLoop drive (false :: o) s it yi pr =
      if s.reentrant < pr + 1 then
        (if 0 < it then
          some ({ s with queue := q ++ [t] }, false, SchedularPoll.PendingProgress)
         else some ({ s with queue := q ++ [t] }, false, SchedularPoll.Pending))
      else pollLoop drive o { s with queue := q ++ [t] } it yi (pr + 1) := by
  simp [pollLoop, hq, hd, hr]

/-- C1: in the poll loop, when a popped task is live and not running and its drive
step returns pending, then if afterwards the yielded counter exceeds 2 or the
number of drive attempts this call (`iteration + 1`) exceeds the live-task
count, poll re-signals the notification handle of the caller (the `true` component)
and returns `ShouldYield`.  Consequently (second conjunct) a single spawned task
whose drive step always returns pending and immediately re-wakes itself
(`selfWakeDrive`) makes poll return `ShouldYield` after exactly two internal
iterations, independent of the remaining oracle, so the loop never runs
forever. -/
theorem poll_pending_yield (drive : Nat → State → State × Bool) (o : List Bool)
    (s s1 : State) (it yi pr t : Nat) (q : List Nat)
    (hq : s.queue = t :: q) (hd : (s.tasks t).done = false) (hr : (s.tasks t).running = false)
    (hqd : (s.tasks t).queued = true)
    (hdrive : drive t (driveEnter t { s with queue := q }) = (s1, false))
    (hth : 2 < yi + (if ((setRunning t false (driveExit t s1)).tasks t).queued then 1 else 0)
        ∨ (setRunning t false (driveExit t s1)).len < it + 1) :
    pollLoop drive (false :: o) s it yi pr =
      some (decRef t (setRunning t false (driveExit t s1)), true, SchedularPoll.ShouldYield) ∧
    (∀ o', ∃ s2, poll selfWakeDrive (false :: false :: o') (push initState) =
      some (s2, true, SchedularPoll.ShouldYield)) := by
  constructor
  · simp [pollLoop, hq, hd, hr, hqd, hdrive, hth]
  · exact fun o' => ⟨_, rfl⟩

theorem detachMap_running (tk : Nat → Task) (t a : Nat) :
    (detachMap tk t a).running = (tk a).running := by
  simp [detachMap]

theorem detachMap_self_done (tk : Nat → Task) (t : Nat) : (detachMap tk t t).done = true := by
  simp [detachMap]

theorem detachMap_self_queued (tk : Nat → Task) (t : Nat) :
    (detachMap tk t t).queued = true := by
  simp [detachMap]

theorem detachMap_self_dropCount (tk : Nat → Task) (t : Nat) :
    (detachMap tk t t).dropCount = (tk t).dropCount + (if (tk t).done then 0 else 1) := by
  simp [detachMap]

theorem detachMap_self_refcount (tk : Nat → Task) (t : Nat) :
    (detachMap tk t t).refcount = (tk t).refcount - 1 := by
  simp [detachMap]

theorem detachMap_other (tk : Nat → Task) (t a : Nat) (ha : a ≠ t) :
    (detachMap tk t a).done = (tk a).done ∧ (detachMap tk t a).queued = (tk a).queued ∧
    (detachMap tk t a).dropCount = (tk a).dropCount ∧
    (detachMap tk t a).refcount = (tk a).refcount := by
  simp [detachMap, ha]

theorem detachMap_eq_of (tk : Nat → Task) (t a : Nat) (ha : a ≠ t)
    (hn : ∀ n, (tk t).next = some n → a ≠ n) (hp : ∀ p, (tk t).prev = some p → a ≠ p) :
    detachMap tk t a = tk a := by
  have h1 : ((tk t).next = some a) = False := by
    simp; intro hc; exact hn a hc rfl
  have h2 : ((tk t).prev = some a) = False := by
    simp; intro hc; exact hp a hc rfl
  simp [detachMap, ha, h1, h2]

theorem detachMap_prev_hit (tk : Nat → Task) (t n : Nat) (h1 : (tk t).next = some n) :
    (detachMap tk t n).prev = (tk t).prev := by
  simp [detachMap, h1]

theorem detachMap_next_hit (tk : Nat → Task) (t p : Nat) (h2 : (tk t).prev = some p) :
    (detachMap tk t p).next = (tk t).next := by
  simp [detachMap, h2]

theorem detachMap_next_of (tk : Nat → Task) (t a : Nat)
    (hp : ∀ p, (tk t).prev = some p → a ≠ p) :
    (detachMap tk t a).next = (tk a).next := by
  have h2 : ((tk t).prev = some a) = False := by
    simp; intro hc; exact hp a hc rfl
  simp [detachMap, h2]

theorem detachMap_prev_of (tk : Nat → Task) (t a : Nat)
    (hn : ∀ n, (tk t).next = some n → a ≠ n) :
    (detachMap tk t a).prev = (tk a).prev := by
  have h1 : ((tk t).next = some a) = False := by
    simp; intro hc; exact hn a hc rfl
  simp [detachMap, h1]

/-- C4 counterexample: after spawning two tasks and unlinking task 1 once, task 1
is `done` and `len` is 1; a second `pop_task_all` on the already retired task 1
is not a no-op: it changes `len` from 1 to 0 even though task 0 is still linked
(`all_next` is still `some 0`), and it drops the reference count of task 1 from
1 to 0 again.  This refutes the claim that the live-task count and the reference
count are not changed again by a second call. -/
theorem popTaskAll_second_call_not_noop :
    ((popTaskAll 1 (push (push initState))).tasks 1).done = true ∧
    (popTaskAll 1 (push (push initState))).len = 1 ∧
    (popTaskAll 1 (popTaskAll 1 (push (push initState)))).len = 0 ∧
    (popTaskAll 1 (popTaskAll 1 (push (push initState)))).allNext = some 0 ∧
    ((popTaskAll 1 (push (push initState))).tasks 1).refcount = 1 ∧
    ((popTaskAll 1 (popTaskAll 1 (push (push initState)))).tasks 1).refcount = 0 := by
  decide

/-- C4 (amended): `pop_task_all` marks `done` idempotently — only the first call
releases the computation (`dropCount` rises exactly once), and a second call on
an already-`done` task performs no further release — but such a second call is
not otherwise a no-op: it still decrements the live-task count and drops one
more reference.  (The source never invokes `pop_task_all` twice on the same
task; stale queue entries for retired tasks are skipped in the poll loop instead
of being unlinked again.) -/
theorem popTaskAll_idempotent_drop (s : State) (t : Nat) (hd : (s.tasks t).done = false) :
    ((popTaskAll t s).tasks t).done = true ∧
    ((popTaskAll t s).tasks t).queued = true ∧
    ((popTaskAll t s).tasks t).dropCount = (s.tasks t).dropCount + 1 ∧
    (popTaskAll t s).len = s.len - 1 ∧
    (∀ s', (s'.tasks t).done = true →
      ((popTaskAll t s').tasks t).dropCount = (s'.tasks t).dropCount ∧
      ((popTaskAll t s').tasks t).done = true ∧
      ((popTaskAll t s').tasks t).queued = true ∧
      (popTaskAll t s').len = s'.len - 1 ∧
      ((popTaskAll t s').tasks t).refcount = (s'.tasks t).refcount - 1) := by
  refine ⟨?_, ?_, ?_, ?_, ?_⟩
  · exact detachMap_self_done s.tasks t
  · exact detachMap_self_queued s.tasks t
  · simp [popTaskAll, detachMap_self_dropCount, hd]
  · rfl
  · intro s' hd'
    refine ⟨?_, detachMap_self_done s'.tasks t, detachMap_self_queued s'.tasks t, rfl, ?_⟩
    · simp [popTaskAll, detachMap_self_dropCount, hd']
    · exact detachMap_self_refcount s'.tasks t

/-- C7: spawn (`push`) allocates fresh task storage with two references (one
held by the all-task list, one by the ready queue), prepends the task to the
all-task list head, appends the second reference to the ready queue and
increments the live-task count; no drive step of any computation happens
synchronously: the `running` flag of every task and computation-drop counter are
unchanged. -/
theorem push_spec (s : State) (hf : s.tasks s.nalloc = Task.default)
    (hx : ∀ x, s.allNext = some x → x < s.nalloc) :
    (push s).len = s.len + 1 ∧
    (push s).nalloc = s.nalloc + 1 ∧
    (push s).allNext = some s.nalloc ∧
    ((push s).tasks s.nalloc).next = s.allNext ∧
    ((push s).tasks s.nalloc).prev = none ∧
    ((push s).tasks s.nalloc).queued = true ∧
    ((push s).tasks s.nalloc).running = false ∧
    ((push s).tasks s.nalloc).done = false ∧
    ((push s).tasks s.nalloc).refcount = 2 ∧
    (push s).queue = s.queue ++ [s.nalloc] ∧
    (∀ a, ((push s).tasks a).running = (s.tasks a).running) ∧
    (∀ a, ((push s).tasks a).dropCount = (s.tasks a).dropCount) ∧
    (∀ a, a < s.nalloc → ((push s).tasks a).done = (s.tasks a).done ∧
        ((push s).tasks a).queued = (s.tasks a).queued) := by
  have hne : ¬ s.allNext = some s.nalloc := by
    intro hc
    exact absurd (hx _ hc) (Nat.lt_irrefl _)
  refine ⟨rfl, rfl, rfl, ?_, ?_, ?_, ?_, ?_, ?_, rfl, ?_, ?_, ?_⟩
  · simp [push, pushTaskToAll, hne]
  · simp [push, pushTaskToAll, hne, Task.new]
  · simp [push, pushTaskToAll, Task.new]
  · simp [push, pushTaskToAll, Task.new]
  · simp [push, pushTaskToAll, Task.new]
  · simp [push, pushTaskToAll, Task.new]
  · intro a
    by_cases h : a = s.nalloc
    · subst h
      simp [push, pushTaskToAll, Task.new, hf, Task.default]
    · simp [push, pushTaskToAll, h]
  · intro a
    by_cases h : a = s.nalloc
    · subst h
      simp [push, pushTaskToAll, Task.new, hf, Task.default]
    · simp [push, pushTaskToAll, h]
  · intro a ha
    have h : ¬ a = s.nalloc := Nat.ne_of_lt ha
    constructor <;> simp [push, pushTaskToAll, h]

theorem chain_congr (tk tk' : Nat → Task) (l : List Nat) : ∀ (pr h : Option Nat),
    (∀ a, a ∈ l → (tk' a).next = (tk a).next ∧ (tk' a).prev = (tk a).prev) →
    chain tk pr h l → chain tk' pr h l := by
  induction l with
  | nil => intro pr h _ hc; exact hc
  | cons a l ih =>
    intro pr h hsame hc
    obtain ⟨h1, h2, h3⟩ := hc
    refine ⟨h1, ?_, ?_⟩
    · rw [(hsame a (List.mem_cons_self a l)).2]; exact h2
    · rw [(hsame a (List.mem_cons_self a l)).1]
      exact ih (some a) ((tk a).next) (fun b hb => hsame b (List.mem_cons_of_mem a hb)) h3

theorem chain_mid_next (tk : Nat → Task) (t : Nat) (l2 : List Nat) :
    ∀ (l1 : List Nat) (pr h : Option Nat), chain tk pr h (l1 ++ t :: l2) →
      (tk t).next = l2.head? := by
  intro l1
  induction l1 with
  | nil =>
    intro pr h hc
    obtain ⟨h1, h2, h3⟩ := hc
    rcases l2 with _ | ⟨n, l2t⟩
    · exact h3
    · exact h3.1
  | cons a l1 ih =>
    intro pr h hc
    exact ih (some a) ((tk a).next) hc.2.2

theorem chain_mid_prev (tk : Nat → Task) (t : Nat) (l2 : List Nat) :
    ∀ (l1 : List Nat) (pr h : Option Nat), chain tk pr h (l1 ++ t :: l2) →
      (tk t).prev = (match l1.getLast? with | none => pr | some p => some p) := by
  intro l1
  induction l1 with
  | nil =>
    intro pr h hc
    simpa using hc.2.1
  | cons a l1 ih =>
    intro pr h hc
    have hrec := ih (some a) ((tk a).next) hc.2.2
    rcases l1 with _ | ⟨b, l1t⟩
    · simpa using hrec
    · rcases hx : (b :: l1t).getLast? with _ | x
      · exact absurd (List.getLast?_eq_none_iff.mp hx) (by simp)
      · simp only [List.getLast?_cons_cons, hx] at hrec ⊢
        exact hrec

theorem chain_detach (tk : Nat → Task) (t : Nat) (l2 : List Nat) :
    ∀ (l1 : List Nat) (pr h : Option Nat),
      chain tk pr h (l1 ++ t :: l2) →
      (l1 ++ t :: l2).Nodup →
      (∀ p, pr = some p → ¬ p ∈ t :: l2) →
      chain (detachMap tk t) pr (if l1 = [] then (tk t).next else h) (l1 ++ l2) := by
  intro l1
  induction l1 with
  | nil =>
    intro pr h hc hnd hside
    obtain ⟨h1, h2, h3⟩ := hc
    simp only [List.nil_append, if_pos rfl] at *
    rcases l2 with _ | ⟨n, l2t⟩
    · exact h3
    · obtain ⟨h4, h5, h6⟩ := h3
      have hnmem : ¬ n ∈ l2t := by
        have := hnd.of_cons
        exact (List.nodup_cons.mp this).1
      have htmem : ¬ t ∈ n :: l2t := (List.nodup_cons.mp hnd).1
      refine ⟨h4, ?_, ?_⟩
      · rw [detachMap_prev_hit tk t n h4]; exact h2
      · have hnn : (detachMap tk t n).next = (tk n).next := by
          apply detachMap_next_of
          intro p hp hcontra
          subst hcontra
          rw [h2] at hp
          exact hside _ hp (List.mem_cons_of_mem t (List.mem_cons_self n l2t))
        rw [hnn]
        apply chain_congr tk (detachMap tk t) l2t (some n) ((tk n).next) ?_ h6
        intro a ha
        constructor
        · apply detachMap_next_of
          intro p hp hcontra
          subst hcontra
          rw [h2] at hp
          exact hside _ hp (List.mem_cons_of_mem t (List.mem_cons_of_mem n ha))
        · apply detachMap_prev_of
          intro n2 hn2 hcontra
          rw [h4] at hn2
          cases hn2
          subst hcontra
          exact hnmem ha
  | cons a l1 ih =>
    intro pr h hc hnd hside
    obtain ⟨h1, h2, h3⟩ := hc
    have hmn : (tk t).next = l2.head? := chain_mid_next tk t l2 l1 (some a) ((tk a).next) h3
    have hanotin : ¬ a ∈ l1 ++ t :: l2 := (List.nodup_cons.mp hnd).1
    have handt : ¬ a ∈ t :: l2 := fun hmem => hanotin (List.mem_append_right l1 hmem)
    have hrec := ih (some a) ((tk a).next) h3 (List.nodup_cons.mp hnd).2
      (by intro p hp; cases hp; exact handt)
    refine ⟨?_, ?_, ?_⟩
    · simpa using h1
    · have hpa : (detachMap tk t a).prev = (tk a).prev := by
        apply detachMap_prev_of
        intro n hn hcontra
        rw [hmn] at hn
        subst hcontra
        have : a ∈ l2 := List.mem_of_mem_head? hn
        exact handt (List.mem_cons_of_mem t this)
      rw [hpa]; exact h2
    · rcases hl1 : l1 with _ | ⟨b, l1t⟩
      · subst hl1
        simp only [if_pos rfl] at hrec
        have hpt : (tk t).prev = some a := by
          simpa using h3.2.1
        have hna : (detachMap tk t a).next = (tk t).next := detachMap_next_hit tk t a hpt
        rw [hna]
        simpa using hrec
      · subst hl1
        simp only [List.cons_ne_nil, if_neg (by simp : ¬ (b :: l1t) = [])] at hrec
        have hprevt : (tk t).prev =
            (match (b :: l1t).getLast? with | none => some a | some p => some p) :=
          chain_mid_prev tk t l2 (b :: l1t) (some a) ((tk a).next) h3
        have hna : (detachMap tk t a).next = (tk a).next := by
          apply detachMap_next_of
          intro p hp hcontra
          subst hcontra
          rcases hx : (b :: l1t).getLast? with _ | x
          · exact absurd (List.getLast?_eq_none_iff.mp hx) (by simp)
          · rw [hx] at hprevt
            simp only at hprevt
            rw [hprevt] at hp
            cases hp
            have hxmem : a ∈ b :: l1t := List.mem_of_mem_getLast? hx
            exact hanotin (List.mem_append_left _ hxmem)
        rw [hna]
        exact hrec

theorem rep_detach (s : State) (t : Nat) (l1 l2 : List Nat)
    (hrep : ListRep s (l1 ++ t :: l2)) :
    ListRep (popTaskAll t s) (l1 ++ l2) := by
  obtain ⟨hch, hap, hnd, hmem⟩ := hrep
  have hbn : (s.tasks t).next = l2.head? := chain_mid_next s.tasks t l2 l1 none s.allNext hch
  have hbp : (s.tasks t).prev = l1.getLast? := by
    have hx := chain_mid_prev s.tasks t l2 l1 none s.allNext hch
    rcases hy : l1.getLast? with _ | x
    · rw [hy] at hx; simpa using hx
    · rw [hy] at hx; simpa using hx
  have hsplit := List.nodup_append.mp hnd
  have htl1 : ¬ t ∈ l1 := fun hmem1 => hsplit.2.2 hmem1 (List.mem_cons_self t l2)
  have htl2 : ¬ t ∈ l2 := (List.nodup_cons.mp hsplit.2.1).1
  have htnotin : ¬ t ∈ l1 ++ l2 := by
    intro hc
    rcases List.mem_append.mp hc with hc | hc
    · exact htl1 hc
    · exact htl2 hc
  have hAN : (popTaskAll t s).allNext = (if l1 = [] then (s.tasks t).next else s.allNext) := by
    show (if (s.tasks t).prev = none then (s.tasks t).next else s.allNext) = _
    rw [hbp]
    rcases l1 with _ | ⟨b, l1t⟩
    · simp
    · rcases hx : (b :: l1t).getLast? with _ | x
      · exact absurd (List.getLast?_eq_none_iff.mp hx) (by simp)
      · simp [hx]
  refine ⟨?_, ?_, ?_, ?_⟩
  · show chain (detachMap s.tasks t) none (popTaskAll t s).allNext (l1 ++ l2)
    rw [hAN]
    exact chain_detach s.tasks t l2 l1 none s.allNext hch hnd (by intro p hp; cases hp)
  · show (if (s.tasks t).next = none then (s.tasks t).prev else s.allPrev) = (l1 ++ l2).getLast?
    rw [hbn]
    rcases l2 with _ | ⟨n, l2t⟩
    · simp [hbp]
    · have h1 : ¬ (l2t = [] ∧ False) := by simp
      rw [if_neg (by simp)]
      rw [hap]
      rw [List.getLast?_append_of_ne_nil l1 (by simp : ¬ (t :: n :: l2t) = [])]
      rw [List.getLast?_append_of_ne_nil l1 (by simp : ¬ (n :: l2t) = [])]
      rw [List.getLast?_cons_cons]
  · exact List.Nodup.sublist ((List.Sublist.refl l1).append (List.sublist_cons_self t l2)) hnd
  · intro a
    by_cases hat : a = t
    · subst hat
      simp only [htnotin, false_iff]
      intro hc
      have hdone : ((popTaskAll a s).tasks a).done = true := detachMap_self_done s.tasks a
      rw [hc.2] at hdone
      cases hdone
    · have hd := (detachMap_other s.tasks t a hat).1
      show a ∈ l1 ++ l2 ↔ a < s.nalloc ∧ (detachMap s.tasks t a).done = false
      rw [hd]
      rw [← hmem a]
      constructor
      · intro hc
        rcases List.mem_append.mp hc with hc | hc
        · exact List.mem_append_left _ hc
        · exact List.mem_append_right _ (List.mem_cons_of_mem t hc)
      · intro hc
        rcases List.mem_append.mp hc with hc | hc
        · exact List.mem_append_left _ hc
        · rcases List.mem_cons.mp hc with hc | hc
          · exact absurd hc hat
          · exact List.mem_append_right _ hc

theorem push_tasks_fresh (s : State) (hne : ¬ s.allNext = some s.nalloc) :
    (push s).tasks s.nalloc = { Task.new with next := s.allNext } := by
  simp [push, pushTaskToAll, hne]

theorem push_tasks_head (s : State) (x : Nat) (hx : s.allNext = some x) (hxf : x ≠ s.nalloc) :
    (push s).tasks x = { s.tasks x with prev := some s.nalloc } := by
  simp [push, pushTaskToAll, hx, hxf]

theorem push_tasks_other (s : State) (a : Nat) (ha : a ≠ s.nalloc)
    (hh : ¬ s.allNext = some a) : (push s).tasks a = s.tasks a := by
  simp [push, pushTaskToAll, ha, hh]

theorem push_len (s : State) : (push s).len = s.len + 1 := rfl

theorem push_nalloc (s : State) : (push s).nalloc = s.nalloc + 1 := rfl

theorem push_queue (s : State) : (push s).queue = s.queue ++ [s.nalloc] := rfl

theorem push_allNext (s : State) : (push s).allNext = some s.nalloc := rfl

theorem rep_push (s : State) (l : List Nat) (hrep : ListRep s l) :
    ListRep (push s) (s.nalloc :: l) := by
  obtain ⟨hch, hap, hnd, hmem⟩ := hrep
  have hfresh : ¬ s.nalloc ∈ l := by
    intro hc
    exact absurd ((hmem s.nalloc).mp hc).1 (Nat.lt_irrefl _)
  have hne : ¬ s.allNext = some s.nalloc := by
    intro hc
    rcases l with _ | ⟨x, lt⟩
    · rw [hch] at hc; cases hc
    · rw [hch.1] at hc
      cases hc
      exact hfresh (List.mem_cons_self _ _)
  refine ⟨?_, ?_, ?_, ?_⟩
  · refine ⟨push_allNext s, ?_, ?_⟩
    · rw [push_tasks_fresh s hne]; rfl
    · rw [push_tasks_fresh s hne]
      show chain (push s).tasks (some s.nalloc) s.allNext l
      rcases l with _ | ⟨x, lt⟩
      · exact hch
      · obtain ⟨h1, h2, h3⟩ := hch
        have hxf : x ≠ s.nalloc := by
          intro hc
          exact hfresh (hc ▸ List.mem_cons_self _ _)
        have hxl : ¬ x ∈ lt := (List.nodup_cons.mp hnd).1
        refine ⟨h1, ?_, ?_⟩
        · rw [push_tasks_head s x h1 hxf]
        · rw [push_tasks_head s x h1 hxf]
          show chain (push s).tasks (some x) (s.tasks x).next lt
          apply chain_congr s.tasks (push s).tasks lt (some x) ((s.tasks x).next) ?_ h3
          intro a ha
          have haf : a ≠ s.nalloc := by
            intro hc
            exact hfresh (hc ▸ List.mem_cons_of_mem x ha)
          have hax : ¬ s.allNext = some a := by
            rw [h1]
            intro hc
            cases hc
            exact hxl ha
          rw [push_tasks_other s a haf hax]
          exact ⟨rfl, rfl⟩
  · show (if s.allPrev = none then some s.nalloc else s.allPrev) = (s.nalloc :: l).getLast?
    rcases l with _ | ⟨x, lt⟩
    · simp at hap
      simp [hap]
    · rcases hx : (x :: lt).getLast? with _ | y
      · exact absurd (List.getLast?_eq_none_iff.mp hx) (by simp)
      · rw [hap, hx, List.getLast?_cons_cons, hx]
        simp
  · exact List.nodup_cons.mpr ⟨hfresh, hnd⟩
  · intro a
    by_cases haf : a = s.nalloc
    · subst haf
      constructor
      · intro _
        refine ⟨by rw [push_nalloc]; exact Nat.lt_succ_self _, ?_⟩
        rw [push_tasks_fresh s hne]; rfl
      · intro _
        exact List.mem_cons_self _ _
    · constructor
      · intro hc
        rcases List.mem_cons.mp hc with hc | hc
        · exact absurd hc haf
        · have h1 := (hmem a).mp hc
          refine ⟨by rw [push_nalloc]; exact Nat.lt_succ_of_lt h1.1, ?_⟩
          by_cases hax : s.allNext = some a
          · rw [push_tasks_head s a hax haf]
            exact h1.2
          · rw [push_tasks_other s a haf hax]
            exact h1.2
      · intro hc
        apply List.mem_cons_of_mem
        apply (hmem a).mpr
        have ha1 : a < s.nalloc := by
          have h1 := hc.1
          rw [push_nalloc] at h1
          omega
        refine ⟨ha1, ?_⟩
        have h2 := hc.2
        by_cases hax : s.allNext = some a
        · rw [push_tasks_head s a hax haf] at h2
          exact h2
        · rw [push_tasks_other s a haf hax] at h2
          exact h2

theorem rep_updateTask (s : State) (t : Nat) (f : Task → Task) (l : List Nat)
    (hnext : ∀ x, (f x).next = x.next) (hprev : ∀ x, (f x).prev = x.prev)
    (hdone : ∀ x, (f x).done = x.done)
    (hrep : ListRep s l) : ListRep (updateTask t f s) l := by
  obtain ⟨hch, hap, hnd, hmem⟩ := hrep
  refine ⟨?_, hap, hnd, ?_⟩
  · show chain ((updateTask t f s).tasks) none s.allNext l
    apply chain_congr s.tasks ((updateTask t f s).tasks) l none s.allNext ?_ hch
    intro a ha
    show ((if a = t then f (s.tasks a) else s.tasks a)).next = (s.tasks a).next ∧
      ((if a = t then f (s.tasks a) else s.tasks a)).prev = (s.tasks a).prev
    by_cases h : a = t <;> simp [h, hnext, hprev]
  · intro a
    rw [hmem a]
    show (a < s.nalloc ∧ (s.tasks a).done = false) ↔
      (a < s.nalloc ∧ (if a = t then f (s.tasks a) else s.tasks a).done = false)
    by_cases h : a = t <;> simp [h, hdone]

theorem inv_updateTask (s : State) (t : Nat) (f : Task → Task) (hInv : Inv s)
    (ht : t < s.nalloc)
    (hnext : ∀ x, (f x).next = x.next) (hprev : ∀ x, (f x).prev = x.prev)
    (hdone : ∀ x, (f x).done = x.done)
    (hqmono : ∀ x, x.queued = true → (f x).queued = true) :
    Inv (updateTask t f s) := by
  obtain ⟨l, hl, hlen⟩ := hInv.rep
  refine ⟨⟨l, rep_updateTask s t f l hnext hprev hdone hl, hlen⟩, hInv.queueOnce, ?_, ?_, ?_,
    hInv.queueAlloc⟩
  · intro a ha
    show (if a = t then f (s.tasks a) else s.tasks a).queued = true
    by_cases h : a = t
    · rw [if_pos h]
      exact hqmono _ (hInv.queueQueued a ha)
    · rw [if_neg h]
      exact hInv.queueQueued a ha
  · intro a hd
    show (if a = t then f (s.tasks a) else s.tasks a).queued = true
    have hd2 : (s.tasks a).done = true := by
      by_cases h : a = t
      · rw [show ((updateTask t f s).tasks a).done = (s.tasks a).done by
          show (if a = t then f (s.tasks a) else s.tasks a).done = _
          rw [if_pos h, hdone]] at hd
        exact hd
      · rw [show ((updateTask t f s).tasks a).done = (s.tasks a).done by
          show (if a = t then f (s.tasks a) else s.tasks a).done = _
          rw [if_neg h]] at hd
        exact hd
    by_cases h : a = t
    · rw [if_pos h]
      exact hqmono _ (hInv.doneQueued a hd2)
    · rw [if_neg h]
      exact hInv.doneQueued a hd2
  · intro a ha
    have ha2 : s.nalloc ≤ a := ha
    show (if a = t then f (s.tasks a) else s.tasks a) = Task.default
    rw [if_neg (by omega : ¬ a = t)]
    exact hInv.defaults a ha2

theorem inv_popQueueHead (s : State) (t : Nat) (q : List Nat) (hq : s.queue = t :: q)
    (hInv : Inv s) : Inv (decRef t { s with queue := q }) := by
  have ht : t < s.nalloc := hInv.queueAlloc t (by rw [hq]; exact List.mem_cons_self t q)
  have hmid : Inv { s with queue := q } := by
    refine ⟨hInv.rep, ?_, ?_, hInv.doneQueued, hInv.defaults, ?_⟩
    · intro a
      show q.count a ≤ 1
      have h0 := hInv.queueOnce a
      rw [hq, List.count_cons] at h0
      omega
    · intro a ha
      exact hInv.queueQueued a (by rw [hq]; exact List.mem_cons_of_mem t ha)
    · intro a ha
      exact hInv.queueAlloc a (by rw [hq]; exact List.mem_cons_of_mem t ha)
  exact inv_updateTask { s with queue := q } t _ hmid ht
    (fun x => rfl) (fun x => rfl) (fun x => rfl) (fun x h => h)

theorem inv_popTaskAll (s : State) (t : Nat) (hInv : Inv s) (ht : t < s.nalloc)
    (hd : (s.tasks t).done = false) : Inv (popTaskAll t s) := by
  obtain ⟨l, hl, hlen⟩ := hInv.rep
  have hmem := hl.2.2.2
  have htin : t ∈ l := (hmem t).mpr ⟨ht, hd⟩
  obtain ⟨l1, l2, hl12⟩ := List.append_of_mem htin
  subst hl12
  have hrep2 := rep_detach s t l1 l2 hl
  have hch := hl.1
  have hbn : (s.tasks t).next = l2.head? := chain_mid_next s.tasks t l2 l1 none s.allNext hch
  have hbp : (s.tasks t).prev = l1.getLast? := by
    have hx := chain_mid_prev s.tasks t l2 l1 none s.allNext hch
    rcases hy : l1.getLast? with _ | x
    · rw [hy] at hx; simpa using hx
    · rw [hy] at hx; simpa using hx
  refine ⟨⟨l1 ++ l2, hrep2, ?_⟩, hInv.queueOnce, ?_, ?_, ?_, hInv.queueAlloc⟩
  · show s.len - 1 = (l1 ++ l2).length
    rw [hlen]
    simp [List.length_append]
  · intro a ha
    show (detachMap s.tasks t a).queued = true
    by_cases h : a = t
    · subst h; exact detachMap_self_queued s.tasks a
    · rw [(detachMap_other s.tasks t a h).2.1]
      exact hInv.queueQueued a ha
  · intro a hda
    show (detachMap s.tasks t a).queued = true
    by_cases h : a = t
    · subst h; exact detachMap_self_queued s.tasks a
    · rw [(detachMap_other s.tasks t a h).2.1]
      apply hInv.doneQueued a
      have heq : (detachMap s.tasks t a).done = (s.tasks a).done :=
        (detachMap_other s.tasks t a h).1
      rw [← heq]
      exact hda
  · intro a ha
    have ha2 : s.nalloc ≤ a := ha
    show detachMap s.tasks t a = Task.default
    have hat : a ≠ t := by omega
    have hnn : ∀ n, (s.tasks t).next = some n → a ≠ n := by
      intro n hn hc
      subst hc
      rw [hbn] at hn
      have h1 : a ∈ l2 := List.mem_of_mem_head? hn
      have h2 : a ∈ l1 ++ t :: l2 := List.mem_append_right _ (List.mem_cons_of_mem t h1)
      have h3 := ((hmem a).mp h2).1
      omega
    have hpp : ∀ p, (s.tasks t).prev = some p → a ≠ p := by
      intro p hp hc
      subst hc
      rw [hbp] at hp
      have h1 : a ∈ l1 := List.mem_of_mem_getLast? hp
      have h2 : a ∈ l1 ++ t :: l2 := List.mem_append_left _ h1
      have h3 := ((hmem a).mp h2).1
      omega
    rw [detachMap_eq_of s.tasks t a hat hnn hpp]
    exact hInv.defaults a ha2

theorem rep_allNext_mem (s : State) (l : List Nat) (hrep : ListRep s l) (x : Nat)
    (hx : s.allNext = some x) : x ∈ l := by
  rcases l with _ | ⟨y, lt⟩
  · have h0 : s.allNext = none := hrep.1
    rw [h0] at hx; cases hx
  · have h0 : s.allNext = some y := hrep.1.1
    rw [h0] at hx
    cases hx
    exact List.mem_cons_self _ _

theorem inv_wake (s : State) (t : Nat) (ht : t < s.nalloc) (hInv : Inv s) :
    Inv (wake t s) := by
  by_cases hq : (s.tasks t).queued
  · rw [wake, if_pos hq]; exact hInv
  · rw [wake, if_neg hq]
    have htq : ¬ t ∈ s.queue := fun hc => hq (hInv.queueQueued t hc)
    obtain ⟨l, hl, hlen⟩ := hInv.rep
    have heval : ∀ a, (updateTask t (fun x => { x with refcount := x.refcount + 1 })
        (setQueued t true s)).tasks a =
        (if a = t then
          { s.tasks a with queued := true, refcount := (s.tasks a).refcount + 1 }
         else s.tasks a) := by
      intro a
      by_cases h : a = t <;> simp [updateTask, setQueued, h]
    refine ⟨⟨l, ?_, hlen⟩, ?_, ?_, ?_, ?_, ?_⟩
    · exact rep_updateTask (setQueued t true s) t
        (fun x => { x with refcount := x.refcount + 1 }) l (fun x => rfl) (fun x => rfl)
        (fun x => rfl)
        (rep_updateTask s t (fun x => { x with queued := true }) l (fun x => rfl)
          (fun x => rfl) (fun x => rfl) hl)
    · intro a
      show (s.queue ++ [t]).count a ≤ 1
      rw [List.count_append]
      by_cases h : a = t
      · subst h
        rw [List.count_eq_zero.mpr htq]
        simp
      · have h1 := hInv.queueOnce a
        have h2 : [t].count a = 0 := by
          rw [List.count_eq_zero]
          simp
          intro hc
          exact h hc
        omega
    · intro a ha
      show ((updateTask t (fun x => { x with refcount := x.refcount + 1 })
        (setQueued t true s)).tasks a).queued = true
      rw [heval a]
      by_cases h : a = t
      · simp [h]
      · rw [if_neg h]
        have ha2 : a ∈ s.queue ++ [t] := ha
        rcases List.mem_append.mp ha2 with hc | hc
        · exact hInv.queueQueued a hc
        · exact absurd (List.mem_singleton.mp hc) h
    · intro a hda
      show ((updateTask t (fun x => { x with refcount := x.refcount + 1 })
        (setQueued t true s)).tasks a).queued = true
      rw [heval a]
      by_cases h : a = t
      · simp [h]
      · rw [if_neg h]
        apply hInv.doneQueued a
        have hda2 := hda
        rw [show ((updateTask t (fun x => { x with refcount := x.refcount + 1 })
          (setQueued t true s)).tasks a).done = (s.tasks a).done by
            rw [heval a, if_neg h]] at hda2
        exact hda2
    · intro a ha
      have ha2 : s.nalloc ≤ a := ha
      show (updateTask t (fun x => { x with refcount := x.refcount + 1 })
        (setQueued t true s)).tasks a = Task.default
      rw [heval a, if_neg (by omega : ¬ a = t)]
      exact hInv.defaults a ha2
    · intro a ha
      have ha2 : a ∈ s.queue ++ [t] := ha
      show a < s.nalloc
      rcases List.mem_append.mp ha2 with hc | hc
      · exact hInv.queueAlloc a hc
      · rw [List.mem_singleton.mp hc]; exact ht

theorem inv_push (s : State) (hInv : Inv s) : Inv (push s) := by
  obtain ⟨l, hl, hlen⟩ := hInv.rep
  have hfresh : ¬ s.nalloc ∈ l := by
    intro hc
    exact absurd ((hl.2.2.2 s.nalloc).mp hc).1 (Nat.lt_irrefl _)
  have hne : ¬ s.allNext = some s.nalloc := by
    intro hc
    exact hfresh (rep_allNext_mem s l hl s.nalloc hc)
  have hfq : ¬ s.nalloc ∈ s.queue := by
    intro hc
    exact absurd (hInv.queueAlloc _ hc) (Nat.lt_irrefl _)
  refine ⟨⟨s.nalloc :: l, rep_push s l hl, ?_⟩, ?_, ?_, ?_, ?_, ?_⟩
  · show s.len + 1 = l.length + 1
    omega
  · intro a
    show (s.queue ++ [s.nalloc]).count a ≤ 1
    rw [List.count_append]
    by_cases h : a = s.nalloc
    · subst h
      rw [List.count_eq_zero.mpr hfq]
      simp
    · have h1 := hInv.queueOnce a
      have h2 : [s.nalloc].count a = 0 := by
        rw [List.count_eq_zero]
        simp
        intro hc
        exact h hc
      omega
  · intro a ha
    have ha2 : a ∈ s.queue ++ [s.nalloc] := ha
    rcases List.mem_append.mp ha2 with hc | hc
    · have haN : a < s.nalloc := hInv.queueAlloc a hc
      have haf : a ≠ s.nalloc := by omega
      by_cases hax : s.allNext = some a
      · rw [push_tasks_head s a hax haf]
        exact hInv.queueQueued a hc
      · rw [push_tasks_other s a haf hax]
        exact hInv.queueQueued a hc
    · rw [List.mem_singleton.mp hc, push_tasks_fresh s hne]
      rfl
  · intro a hda
    by_cases h : a = s.nalloc
    · subst h
      rw [push_tasks_fresh s hne] at hda ⊢
      cases hda
    · by_cases hax : s.allNext = some a
      · rw [push_tasks_head s a hax h] at hda ⊢
        exact hInv.doneQueued a hda
      · rw [push_tasks_other s a h hax] at hda ⊢
        exact hInv.doneQueued a hda
  · intro a ha
    have ha2 : s.nalloc + 1 ≤ a := ha
    have h : a ≠ s.nalloc := by omega
    have hax : ¬ s.allNext = some a := by
      intro hc
      have := ((hl.2.2.2 a).mp (rep_allNext_mem s l hl a hc)).1
      omega
    rw [push_tasks_other s a h hax]
    exact hInv.defaults a (by omega)
  · intro a ha
    have ha2 : a ∈ s.queue ++ [s.nalloc] := ha
    show a < s.nalloc + 1
    rcases List.mem_append.mp ha2 with hc | hc
    · have := hInv.queueAlloc a hc
      omega
    · rw [List.mem_singleton.mp hc]
      omega

theorem decRef_done (X : State) (t a : Nat) :
    ((decRef t X).tasks a).done = (X.tasks a).done := by
  by_cases h : a = t <;> simp [decRef, updateTask, h]

theorem decRef_dropCount (X : State) (t a : Nat) :
    ((decRef t X).tasks a).dropCount = (X.tasks a).dropCount := by
  by_cases h : a = t <;> simp [decRef, updateTask, h]

theorem inv_popRepush (s : State) (t : Nat) (q : List Nat) (hq : s.queue = t :: q)
    (hInv : Inv s) : Inv { s with queue := q ++ [t] } := by
  have hperm : (q ++ [t]).Perm (t :: q) := List.perm_append_singleton t q
  refine ⟨hInv.rep, ?_, ?_, hInv.doneQueued, hInv.defaults, ?_⟩
  · intro a
    show (q ++ [t]).count a ≤ 1
    rw [hperm.count_eq]
    have h0 := hInv.queueOnce a
    rw [hq] at h0
    exact h0
  · intro a ha
    have ha2 : a ∈ q ++ [t] := ha
    have ha3 : a ∈ t :: q := hperm.mem_iff.mp ha2
    exact hInv.queueQueued a (by rw [hq]; exact ha3)
  · intro a ha
    have ha2 : a ∈ q ++ [t] := ha
    have ha3 : a ∈ t :: q := hperm.mem_iff.mp ha2
    exact hInv.queueAlloc a (by rw [hq]; exact ha3)

theorem inv_popBegin (s : State) (t : Nat) (q : List Nat) (hq : s.queue = t :: q)
    (hd : (s.tasks t).done = false) (hInv : Inv s) :
    Inv (driveEnter t { s with queue := q }) := by
  have ht : t < s.nalloc := hInv.queueAlloc t (by rw [hq]; exact List.mem_cons_self t q)
  have htq : ¬ t ∈ q := by
    have h0 := hInv.queueOnce t
    rw [hq, List.count_cons] at h0
    simp at h0
    exact List.count_eq_zero.mp (by omega)
  obtain ⟨l, hl, hlen⟩ := hInv.rep
  have heval : ∀ a, ((driveEnter t { s with queue := q }).tasks a) =
      (if a = t then
        { s.tasks a with queued := false, running := true } else s.tasks a) := by
    intro a
    by_cases h : a = t <;> simp [driveEnter, setQueued, setRunning, updateTask, h]
  refine ⟨⟨l, ?_, hlen⟩, ?_, ?_, ?_, ?_, ?_⟩
  · exact rep_updateTask (setQueued t false { s with queue := q }) t
      (fun x => { x with running := true }) l (fun x => rfl) (fun x => rfl) (fun x => rfl)
      (rep_updateTask { s with queue := q } t (fun x => { x with queued := false }) l
        (fun x => rfl) (fun x => rfl) (fun x => rfl) hl)
  · intro a
    show q.count a ≤ 1
    have h0 := hInv.queueOnce a
    rw [hq, List.count_cons] at h0
    omega
  · intro a ha
    have ha2 : a ∈ q := ha
    have hat : a ≠ t := fun hc => htq (hc ▸ ha2)
    rw [heval a, if_neg hat]
    exact hInv.queueQueued a (by rw [hq]; exact List.mem_cons_of_mem t ha2)
  · intro a hda
    rw [heval a] at hda ⊢
    by_cases h : a = t
    · rw [if_pos h] at hda
      have : (s.tasks a).done = true := hda
      rw [h] at this
      rw [hd] at this
      cases this
    · rw [if_neg h] at hda ⊢
      exact hInv.doneQueued a hda
  · intro a ha
    have ha2 : s.nalloc ≤ a := ha
    rw [heval a, if_neg (by omega : ¬ a = t)]
    exact hInv.defaults a ha2
  · intro a ha
    have ha2 : a ∈ q := ha
    exact hInv.queueAlloc a (by rw [hq]; exact List.mem_cons_of_mem t ha2)

theorem inv_endReady (s : State) (t : Nat) (hr : (s.tasks t).running = true)
    (hd : (s.tasks t).done = false) (hInv : Inv s) :
    Inv (decRef t (popTaskAll t (driveExit t s))) := by
  have ht : t < s.nalloc := by
    by_contra hc
    have h0 := hInv.defaults t (by omega)
    rw [h0] at hr
    cases hr
  have h2 : Inv (setRunning t false s) := inv_updateTask s t _ hInv ht (fun x => rfl)
    (fun x => rfl) (fun x => rfl) (fun x h => h)
  have h1 : Inv (driveExit t s) :=
    ⟨h2.rep, h2.queueOnce, h2.queueQueued, h2.doneQueued, h2.defaults, h2.queueAlloc⟩
  have hd1 : ((driveExit t s).tasks t).done = false := by
    simp [driveExit, setRunning, updateTask]
    exact hd
  have h3 : Inv (popTaskAll t (driveExit t s)) := inv_popTaskAll (driveExit t s) t h1 ht hd1
  exact inv_updateTask (popTaskAll t (driveExit t s)) t _ h3 ht (fun x => rfl) (fun x => rfl)
    (fun x => rfl) (fun x h => h)

theorem inv_endPending (s : State) (t : Nat) (hr : (s.tasks t).running = true)
    (hInv : Inv s) : Inv (decRef t (setRunning t false (driveExit t s))) := by
  have ht : t < s.nalloc := by
    by_contra hc
    have h0 := hInv.defaults t (by omega)
    rw [h0] at hr
    cases hr
  have h2 : Inv (setRunning t false s) := inv_updateTask s t _ hInv ht (fun x => rfl)
    (fun x => rfl) (fun x => rfl) (fun x h => h)
  have h1 : Inv (driveExit t s) :=
    ⟨h2.rep, h2.queueOnce, h2.queueQueued, h2.doneQueued, h2.defaults, h2.queueAlloc⟩
  have h3 : Inv (setRunning t false (driveExit t s)) := inv_updateTask (driveExit t s) t _ h1 ht
    (fun x => rfl) (fun x => rfl) (fun x => rfl) (fun x h => h)
  exact inv_updateTask (setRunning t false (driveExit t s)) t _ h3 ht (fun x => rfl)
    (fun x => rfl) (fun x => rfl) (fun x h => h)

theorem inv_drainLoop (o : List Bool) : ∀ s, Inv s → Inv (drainLoop o s) := by
  induction o with
  | nil => intro s h; exact h
  | cons b o ih =>
    intro s h
    cases b
    · simp only [drainLoop]
      cases hq : s.queue with
      | nil => exact h
      | cons t q => exact ih _ (inv_popQueueHead s t q hq h)
    · exact ih s h

theorem drainLoop_drains : ∀ (q : List Nat) (s : State), s.queue = q →
    ((drainLoop (List.replicate q.length false) s).queue = [] ∧
     (drainLoop (List.replicate q.length false) s).len = s.len ∧
     (drainLoop (List.replicate q.length false) s).allNext = s.allNext ∧
     (drainLoop (List.replicate q.length false) s).allPrev = s.allPrev ∧
     (drainLoop (List.replicate q.length false) s).nalloc = s.nalloc ∧
     (∀ a, ((drainLoop (List.replicate q.length false) s).tasks a).done = (s.tasks a).done) ∧
     (∀ a, ((drainLoop (List.replicate q.length false) s).tasks a).dropCount
        = (s.tasks a).dropCount)) := by
  intro q
  induction q with
  | nil =>
    intro s hq
    refine ⟨hq, rfl, rfl, rfl, rfl, fun a => rfl, fun a => rfl⟩
  | cons t q ih =>
    intro s hq
    have hstep : drainLoop (List.replicate (t :: q).length false) s =
        drainLoop (List.replicate q.length false) (decRef t { s with queue := q }) := by
      simp only [List.length_cons, List.replicate_succ, drainLoop, hq]
    have key := ih (decRef t { s with queue := q }) rfl
    obtain ⟨k1, k2, k3, k4, k5, k6, k7⟩ := key
    rw [hstep]
    refine ⟨k1, k2, k3, k4, k5, ?_, ?_⟩
    · intro a
      rw [k6 a, decRef_done]
    · intro a
      rw [k7 a, decRef_dropCount]

theorem clearAllLoop_spec : ∀ (l : List Nat) (s : State), Inv s → ListRep s l →
    s.len = l.length →
    (Inv (clearAllLoop l.length s) ∧
     (clearAllLoop l.length s).len = 0 ∧
     (clearAllLoop l.length s).allNext = none ∧
     (clearAllLoop l.length s).allPrev = none ∧
     (clearAllLoop l.length s).queue = s.queue ∧
     (clearAllLoop l.length s).nalloc = s.nalloc ∧
     (∀ a, a ∈ l → ((clearAllLoop l.length s).tasks a).dropCount
        = (s.tasks a).dropCount + 1) ∧
     (∀ a, ¬ a ∈ l → ((clearAllLoop l.length s).tasks a).dropCount
        = (s.tasks a).dropCount) ∧
     (∀ a, a < s.nalloc → ((clearAllLoop l.length s).tasks a).done = true)) := by
  intro l
  induction l with
  | nil =>
    intro s hInv hrep hlen
    refine ⟨hInv, hlen, hrep.1, ?_, rfl, rfl, ?_, fun a _ => rfl, ?_⟩
    · have h0 := hrep.2.1
      simpa using h0
    · intro a ha; cases ha
    · intro a ha
      cases hdn : (s.tasks a).done
      · exact absurd ((hrep.2.2.2 a).mpr ⟨ha, hdn⟩) (List.not_mem_nil a)
      · exact hdn
  | cons t l ih =>
    intro s hInv hrep hlen
    have hAN : s.allNext = some t := hrep.1.1
    have hstep : clearAllLoop (t :: l).length s = clearAllLoop l.length (popTaskAll t s) := by
      show clearAllLoop (l.length + 1) s = _
      simp only [clearAllLoop, hAN]
    have hmem := hrep.2.2.2
    have ht : t < s.nalloc := ((hmem t).mp (List.mem_cons_self t l)).1
    have hd : (s.tasks t).done = false := ((hmem t).mp (List.mem_cons_self t l)).2
    have htl : ¬ t ∈ l := (List.nodup_cons.mp hrep.2.2.1).1
    have hrep2 : ListRep (popTaskAll t s) l := by
      have h0 := rep_detach s t [] l (by simpa using hrep)
      simpa using h0
    have hInv2 : Inv (popTaskAll t s) := inv_popTaskAll s t hInv ht hd
    have hlen2 : (popTaskAll t s).len = l.length := by
      show s.len - 1 = l.length
      rw [hlen]
      simp
    have key := ih (popTaskAll t s) hInv2 hrep2 hlen2
    obtain ⟨k1, k2, k3, k4, k5, k6, k7, k8, k9⟩ := key
    rw [hstep]
    refine ⟨k1, k2, k3, k4, k5, k6, ?_, ?_, ?_⟩
    · intro a ha
      rcases List.mem_cons.mp ha with hc | hc
      · subst hc
        rw [k8 a htl]
        show (detachMap s.tasks a a).dropCount = (s.tasks a).dropCount + 1
        rw [detachMap_self_dropCount, hd]
        simp
      · have hat : a ≠ t := fun hc2 => htl (hc2 ▸ hc)
        rw [k7 a hc]
        show (detachMap s.tasks t a).dropCount + 1 = (s.tasks a).dropCount + 1
        rw [(detachMap_other s.tasks t a hat).2.2.1]
    · intro a ha
      have hat : a ≠ t := fun hc => ha (hc ▸ List.mem_cons_self t l)
      have hal : ¬ a ∈ l := fun hc => ha (List.mem_cons_of_mem t hc)
      rw [k8 a hal]
      show (detachMap s.tasks t a).dropCount = (s.tasks a).dropCount
      rw [(detachMap_other s.tasks t a hat).2.2.1]
    · intro a ha
      exact k9 a ha

theorem inv_clear (s : State) (o : List Bool) (hInv : Inv s) : Inv (clear s.len o s) := by
  obtain ⟨l, hl, hlen⟩ := hInv.rep
  show Inv (drainLoop o (clearAllLoop s.len s))
  rw [hlen]
  exact inv_drainLoop o _ (clearAllLoop_spec l s hInv hl hlen).1

theorem inv_init : Inv initState := by
  refine ⟨⟨[], ⟨rfl, rfl, List.nodup_nil, ?_⟩, rfl⟩, ?_, ?_, ?_, ?_, ?_⟩
  · intro a
    simp [initState, Task.default]
  · intro a
    simp [initState]
  · intro a ha
    cases ha
  · intro a hda
    cases hda
  · intro a _
    rfl
  · intro a ha
    cases ha

theorem inv_step (s s' : State) (h : Step s s') (hInv : Inv s) : Inv s' := by
  cases h with
  | spawnS => exact inv_push s hInv
  | wakeS t ht => exact inv_wake s t ht hInv
  | popDiscardS t q hq hd => exact inv_popQueueHead s t q hq hInv
  | popRepushS t q hq hd hr => exact inv_popRepush s t q hq hInv
  | popBeginS t q hq hd hr => exact inv_popBegin s t q hq hd hInv
  | endReadyS t hr hd => exact inv_endReady s t hr hd hInv
  | endPendingS t hr => exact inv_endPending s t hr hInv
  | clearS o hr => exact inv_clear s o hInv

theorem inv_reachable (s : State) (h : Reachable s) : Inv s := by
  induction h with
  | refl => exact inv_init
  | tail h1 h2 ih => exact inv_step _ _ h2 ih

/-- C9 (implicit): in every reachable state, a task at the head of the ready
queue whose `done` and `running` flags are clear has its `queued` flag set, so
the `queued.swap(false)` in the poll loop always reads `true` and the
`assert!(prev)` guarding it never fails. -/
theorem poll_swap_assertion (s : State) (h : Reachable s) (t : Nat) (q : List Nat)
    (hq : s.queue = t :: q) (_hd : (s.tasks t).done = false)
    (_hr : (s.tasks t).running = false) : (s.tasks t).queued = true :=
  (inv_reachable s h).queueQueued t (by rw [hq]; exact List.mem_cons_self t q)

theorem poll_swap_assertion_w :
    (push initState).queue = 0 :: [] ∧ ((push initState).tasks 0).queued = true :=
  ⟨rfl, poll_swap_assertion (push initState)
    (Relation.ReflTransGen.single (Step.spawnS initState)) 0 [] rfl rfl rfl⟩

/-- C10 (implicit): `pop_task_all` sets the `queued` flag of the task it retires
(together with `done`), establishing that in every reachable state `done`
implies `queued`; since a waker only enqueues a task when its `queued` flag is
false, invoking a waker of a retired task never pushes a new reference into the
ready queue — it leaves the state unchanged. -/
theorem retired_tasks_stay_queued (s : State) (h : Reachable s) :
    (∀ t s0, ((popTaskAll t s0).tasks t).queued = true ∧
      ((popTaskAll t s0).tasks t).done = true) ∧
    (∀ t, (s.tasks t).done = true → (s.tasks t).queued = true) ∧
    (∀ t, (s.tasks t).done = true → wake t s = s) := by
  refine ⟨?_, ?_, ?_⟩
  · intro t s0
    exact ⟨detachMap_self_queued s0.tasks t, detachMap_self_done s0.tasks t⟩
  · exact (inv_reachable s h).doneQueued
  · intro t hd
    simp [wake, (inv_reachable s h).doneQueued t hd]

theorem retired_tasks_stay_queued_w :
    ((decRef 0 (popTaskAll 0 (driveExit 0 (driveEnter 0
        { push initState with queue := [] })))).tasks 0).done = true ∧
    (∀ t, ((decRef 0 (popTaskAll 0 (driveExit 0 (driveEnter 0
        { push initState with queue := [] })))).tasks t).done = true →
      wake t (decRef 0 (popTaskAll 0 (driveExit 0 (driveEnter 0
        { push initState with queue := [] })))) =
      decRef 0 (popTaskAll 0 (driveExit 0 (driveEnter 0
        { push initState with queue := [] })))) := by
  have hreach : Reachable (decRef 0 (popTaskAll 0 (driveExit 0 (driveEnter 0
      { push initState with queue := [] })))) :=
    Relation.ReflTransGen.tail
      (Relation.ReflTransGen.tail
        (Relation.ReflTransGen.single (Step.spawnS initState))
        (Step.popBeginS (push initState) 0 [] rfl rfl rfl))
      (Step.endReadyS (driveEnter 0 { push initState with queue := [] }) 0 rfl rfl)
  exact ⟨by decide, (retired_tasks_stay_queued _ hreach).2.2⟩

/-- C3: in every reachable state, the live-task counter `len` equals the number
of tasks currently linked in the all-task list (there is a list `l` represented
by the pointer structure with `len = l.length`); moreover spawn (`push`) links
exactly one new task at the head while incrementing `len` by one, and every
unlink (`pop_task_all`) detaches exactly the chosen task while decrementing
`len` by one. -/
theorem len_eq_all_list_length (s : State) (h : Reachable s) :
    (∃ l, ListRep s l ∧ s.len = l.length) ∧
    (∀ l, ListRep s l → ListRep (push s) (s.nalloc :: l) ∧ (push s).len = s.len + 1) ∧
    (∀ t l1 l2, ListRep s (l1 ++ t :: l2) → s.len = (l1 ++ t :: l2).length →
      ListRep (popTaskAll t s) (l1 ++ l2) ∧
      (popTaskAll t s).len = (l1 ++ l2).length ∧
      (popTaskAll t s).len = s.len - 1) := by
  refine ⟨(inv_reachable s h).rep, ?_, ?_⟩
  · intro l hl
    exact ⟨rep_push s l hl, rfl⟩
  · intro t l1 l2 hl hlen
    refine ⟨rep_detach s t l1 l2 hl, ?_, rfl⟩
    show s.len - 1 = (l1 ++ l2).length
    rw [hlen]
    simp [List.length_append]

theorem len_eq_all_list_length_w :
    Reachable initState ∧ (∃ l, ListRep initState l ∧ initState.len = l.length) :=
  ⟨Relation.ReflTransGen.refl,
    (len_eq_all_list_length initState Relation.ReflTransGen.refl).1⟩

/-- C8: `clear` unlinks and releases every task remaining in the all-task list
(the computation of each live task is dropped exactly once), then drains the ready
queue; afterwards the live-task count is 0, the all-task list is empty and the
queue is empty, and a subsequent poll returns `Empty`; dropping the schedular
runs `clear`; an inconsistent read during the drain retries (yielding the
thread) instead of failing. -/
theorem clear_finalizes (s : State) (h : Reachable s) (s' : State)
    (hs' : s' = clear s.len (List.replicate s.queue.length false) s) :
    s'.len = 0 ∧ s'.allNext = none ∧ s'.allPrev = none ∧ s'.queue = [] ∧
    (∀ a, a < s.nalloc → (s'.tasks a).done = true) ∧
    (∀ a, a < s.nalloc → (s.tasks a).done = false →
      (s'.tasks a).dropCount = (s.tasks a).dropCount + 1) ∧
    (∀ drive o2, poll drive o2 s' = some (s', false, SchedularPoll.Empty)) ∧
    (∀ fuel o2 s0, dropSchedular fuel o2 s0 = clear fuel o2 s0) ∧
    (∀ o2 s0, drainLoop (true :: o2) s0 = drainLoop o2 s0) := by
  subst hs'
  have hInv := inv_reachable s h
  obtain ⟨l, hl, hlen⟩ := hInv.rep
  have hK := clearAllLoop_spec l s hInv hl hlen
  obtain ⟨k1, k2, k3, k4, k5, k6, k7, k8, k9⟩ := hK
  have hmain : clear s.len (List.replicate s.queue.length false) s =
      drainLoop (List.replicate s.queue.length false) (clearAllLoop l.length s) := by
    rw [clear, hlen]
  have hqlen : s.queue.length = (clearAllLoop l.length s).queue.length := by rw [k5]
  have hD := drainLoop_drains (clearAllLoop l.length s).queue (clearAllLoop l.length s) rfl
  obtain ⟨d1, d2, d3, d4, d5, d6, d7⟩ := hD
  have hDrw : drainLoop (List.replicate s.queue.length false) (clearAllLoop l.length s) =
      drainLoop (List.replicate (clearAllLoop l.length s).queue.length false)
        (clearAllLoop l.length s) := by rw [← hqlen]
  have hlen0 : (clear s.len (List.replicate s.queue.length false) s).len = 0 := by
    rw [hmain, hDrw, d2, k2]
  have hAN : (clear s.len (List.replicate s.queue.length false) s).allNext = none := by
    rw [hmain, hDrw, d3, k3]
  have hAP : (clear s.len (List.replicate s.queue.length false) s).allPrev = none := by
    rw [hmain, hDrw, d4, k4]
  have hQ : (clear s.len (List.replicate s.queue.length false) s).queue = [] := by
    rw [hmain, hDrw, d1]
  refine ⟨hlen0, hAN, hAP, hQ, ?_, ?_, ?_, fun fuel o2 s0 => rfl, fun o2 s0 => rfl⟩
  · intro a ha
    rw [hmain, hDrw, d6 a]
    exact k9 a ha
  · intro a ha hdone
    rw [hmain, hDrw, d7 a]
    have hal : a ∈ l := (hl.2.2.2 a).mpr ⟨ha, hdone⟩
    exact k7 a hal
  · intro drive o2
    rw [poll, if_pos]
    rw [isEmpty, hAN]
    rfl

theorem clear_finalizes_w :
    Reachable initState ∧
    (clear initState.len (List.replicate initState.queue.length false) initState).len = 0 :=
  ⟨Relation.ReflTransGen.refl,
    (clear_finalizes initState Relation.ReflTransGen.refl _ rfl).1⟩

theorem poll_pending_yield_w :
    (push initState).queue = 0 :: [] ∧
    pollLoop selfWakeDrive (false :: []) (push initState) 1 0 0 =
      some (decRef 0 (setRunning 0 false (driveExit 0 (wake 0 (driveEnter 0
        { push initState with queue := [] })))), true, SchedularPoll.ShouldYield) :=
  ⟨rfl, (poll_pending_yield selfWakeDrive [] (push initState)
    (wake 0 (driveEnter 0 { push initState with queue := [] })) 1 0 0 0 [] rfl rfl rfl rfl
    rfl (Or.inr (by decide))).1⟩

theorem poll_reentrant_repush_w :
    reentrantWitnessState.queue = 0 :: [] ∧
    (reentrantWitnessState.tasks 0).running = true ∧
    pollLoop (fun _ s => (s, true)) (false :: []) reentrantWitnessState 0 0 0 =
      (if reentrantWitnessState.reentrant < 0 + 1 then
        (if 0 < 0 then
          some ({ reentrantWitnessState with queue := [] ++ [0] }, false,
            SchedularPoll.PendingProgress)
         else
          some ({ reentrantWitnessState with queue := [] ++ [0] }, false,
            SchedularPoll.Pending))
       else
        pollLoop (fun _ s => (s, true)) [] { reentrantWitnessState with queue := [] ++ [0] }
          0 0 (0 + 1)) :=
  ⟨rfl, rfl, poll_reentrant_repush (fun _ s => (s, true)) [] reentrantWitnessState 0 0 0 0 []
    rfl rfl rfl⟩

theorem poll_queue_empty_w :
    (driveEnter 0 { push initState with queue := [] }).queue = [] ∧
    pollLoop (fun _ s => (s, true)) (false :: [])
        (driveEnter 0 { push initState with queue := [] }) 0 0 0 =
      (if 0 < 0 then
        some (driveEnter 0 { push initState with queue := [] }, false,
          SchedularPoll.PendingProgress)
       else
        some (driveEnter 0 { push initState with queue := [] }, false,
          SchedularPoll.Pending)) :=
  ⟨rfl, (poll_queue_empty (fun _ s => (s, true)) []
    (driveEnter 0 { push initState with queue := [] }) 0 0 0 rfl).1⟩

theorem poll_inconsistent_yields_w :
    (push initState).allNext ≠ none ∧
    poll (fun _ s => (s, true)) (true :: []) (push initState) =
      some (registerWaker (push initState), true, SchedularPoll.ShouldYield) :=
  ⟨by decide, (poll_inconsistent_yields (fun _ s => (s, true)) [] (push initState) 0 0 0).2
    (push initState) (by decide)⟩

theorem push_spec_w :
    initState.tasks initState.nalloc = Task.default ∧
    (push initState).len = initState.len + 1 :=
  ⟨rfl, (push_spec initState rfl (fun _ hc => Option.noConfusion hc)).1⟩

theorem popTaskAll_idempotent_drop_w :
    ((push initState).tasks 0).done = false ∧
    ((popTaskAll 0 (push initState)).tasks 0).done = true :=
  ⟨rfl, (popTaskAll_idempotent_drop (push initState) 0 rfl).1⟩

end SchedularModel
